import Mathlib

/-!
Verification development for a RAG (retrieval-augmented generation) PDF
chatbot.  The definitions below are a shallow embedding of the Python
services `PDFService`, `EmbeddingsService` and `ChatService`:

* `PdfChatbot.normalize_whitespace` embeds `PDFService._normalize_whitespace`
  (the two `re.sub` passes followed by `str.strip`);
* `PdfChatbot.chunk_text` embeds `PDFService.chunk_text` (paragraph split on
  the regex `\n\s*\n`, sentence fallback on `(?<=[.!?])\s+`, and the greedy
  packing loop with overlap seeding);
* `PdfChatbot.add_chunks` and `PdfChatbot.deriveIds` embed
  `EmbeddingsService.add_chunks`, with the embedding provider, CPython's
  `hash` and `id` supplied as explicit oracle functions;
* `PdfChatbot.mergedChunks`, `PdfChatbot.get_context` and `PdfChatbot.answer`
  embed `ChatService._get_context` / `ChatService.answer`, with the vector
  index, the remote chat-completion call and the local pipeline supplied as
  explicit oracles (an exception raised by the remote provider is modelled
  as an `Except.error` carrying the error text).

Python strings are modelled as Lean `String` (a list of characters); the
string primitives used by the code (`strip`, `split`, `lower`, `replace`,
slicing, `join`) are re-implemented structurally on `List Char` so that all
definitions evaluate by kernel reduction.
-/

namespace PdfChatbot

/-- Horizontal whitespace matched by the regex class `[ \t]`. -/
def isHT (c : Char) : Bool := c = ' ' || c = '\t'

/-- The Python whitespace class `\s` (ASCII part), also the set stripped by
`str.strip()` and split on by `str.split()`. -/
def isPyWS (c : Char) : Bool :=
  c = ' ' || c = '\t' || c = '\n' || c = '\r' || c = '\x0b' || c = '\x0c'

/-- `re.sub(r"[ \t]+", " ", text)`: every maximal run of spaces/tabs becomes
one space.  The boolean flag records whether the previous character was part
of a horizontal-whitespace run (in which case nothing more is emitted for
the run). -/
def collapseHT : Bool → List Char → List Char
  | _, [] => []
  | prev, c :: cs =>
    if isHT c then (if prev then [] else [' ']) ++ collapseHT true cs
    else c :: collapseHT false cs

/-- `re.sub(r"\n{3,}", "\n\n", text)`: each maximal run of newlines is capped
at two newlines.  `k` counts how many newlines of the current run have been
seen so far. -/
def capNL : Nat → List Char → List Char
  | _, [] => []
  | k, c :: cs =>
    if c = '\n' then (if k < 2 then ['\n'] else []) ++ capNL (k + 1) cs
    else c :: capNL 0 cs

/-- Leading-whitespace removal (left half of `str.strip()`). -/
def trimLeft (l : List Char) : List Char := l.dropWhile isPyWS

/-- Trailing-whitespace removal (right half of `str.strip()`). -/
def trimRight (l : List Char) : List Char := (l.reverse.dropWhile isPyWS).reverse

/-- `str.strip()` on the character list. -/
def stripChars (l : List Char) : List Char := trimRight (trimLeft l)

/-- `str.strip()` on strings. -/
def pyStripStr (s : String) : String := String.mk (stripChars s.data)

/-- `PDFService._normalize_whitespace`: empty input short-circuits, then
`re.sub(r"[ \t]+", " ")`, `re.sub(r"\n{3,}", "\n\n")`, `str.strip()`. -/
def normalize_whitespace (s : String) : String :=
  if s = "" then ""
  else String.mk (stripChars (capNL 0 (collapseHT false s.data)))

/-- Characters after the last `'\n'` of a list (the part of a whitespace run
that the regex separator `\n\s*\n` does not consume). -/
def afterLastNL (l : List Char) : List Char :=
  (l.reverse.takeWhile (fun c => ¬ c = '\n')).reverse

/-- Worker for `re.split(r"\n\s*\n", text)`.  A match starts at a literal
newline and extends (greedily, with backtracking for the final literal
newline) through the last newline of the maximal whitespace run around it;
such a match exists exactly when the run contains at least two newlines.
`acc` is the current fragment, reversed.  The first argument is fuel
(initialised to the length of the list; each step consumes at least one
character), used only to make the recursion structural. -/
def splitBlankAux : Nat → List Char → List Char → List (List Char)
  | 0, acc, _ => [acc.reverse]
  | _ + 1, acc, [] => [acc.reverse]
  | fuel + 1, acc, c :: cs =>
    if c = '\n' then
      let run := (c :: cs).takeWhile isPyWS
      if 2 ≤ (run.filter (fun d => d = '\n')).length then
        acc.reverse :: splitBlankAux fuel (afterLastNL run).reverse ((c :: cs).dropWhile isPyWS)
      else
        splitBlankAux fuel (c :: acc) cs
    else splitBlankAux fuel (c :: acc) cs

/-- `re.split(r"\n\s*\n", text)`. -/
def splitBlank (l : List Char) : List (List Char) := splitBlankAux l.length [] l

/-- The sentence-ending punctuation class `[.!?]`. -/
def isPunct (c : Char) : Bool := c = '.' || c = '!' || c = '?'

/-- Worker for `re.split(r"(?<=[.!?])\s+", text)`: a separator is a maximal
whitespace run immediately preceded by `.`, `!` or `?`; the punctuation stays
with the left fragment (lookbehind).  Fuel as in `splitBlankAux`. -/
def splitSentAux : Nat → List Char → List Char → List (List Char)
  | 0, acc, _ => [acc.reverse]
  | _ + 1, acc, [] => [acc.reverse]
  | fuel + 1, acc, c :: cs =>
    if isPunct c && (match cs with | d :: _ => isPyWS d | [] => false) then
      (c :: acc).reverse :: splitSentAux fuel [] (cs.dropWhile isPyWS)
    else splitSentAux fuel (c :: acc) cs

/-- `re.split(r"(?<=[.!?])\s+", text)`. -/
def splitSentences (l : List Char) : List (List Char) := splitSentAux l.length [] l

/-- `"\n\n".join(...)` and friends: Python `sep.join(pieces)`. -/
def joinPieces (sep : String) : List String → String
  | [] => ""
  | [x] => x
  | x :: xs => x ++ sep ++ joinPieces sep xs

/-- `sum(len(p) + 2 for p in current)`: the running length the chunker keeps
(each piece's length plus the 2-character join cost). -/
def lenSum (l : List String) : Nat := (l.map (fun p => p.length + 2)).sum

/-- The overlap loop of `chunk_text`: iterate `reversed(current)`, keep a
piece while `overlap_len + len(p) + 2 <= chunk_overlap` (inserting at the
front, so the kept pieces end up in original order), `break` otherwise.
The input list is `current.reverse`; `acc` is `overlap_paras`. -/
def overlapTail (ov : Nat) : Nat → List String → List String → List String
  | _, acc, [] => acc
  | olen, acc, p :: ps =>
    if olen + p.length + 2 ≤ ov then overlapTail ov (olen + p.length + 2) (p :: acc) ps
    else acc

/-- The main packing loop of `chunk_text` over `raw_paras`: close the current
chunk when the next piece would push `current_len` past `chunk_size` and the
accumulator is non-empty, seeding the new accumulator with the overlap
pieces; otherwise append the piece. -/
def packLoop (size ov : Nat) : List String → List String → Nat → List String
  | [], current, _ => if current = [] then [] else [joinPieces "\n\n" current]
  | para :: rest, current, clen =>
    if size < clen + (para.length + 2) ∧ ¬ current = [] then
      let seed := overlapTail ov 0 [] current.reverse
      joinPieces "\n\n" current ::
        packLoop size ov rest (seed ++ [para]) (lenSum seed + (para.length + 2))
    else packLoop size ov rest (current ++ [para]) (clen + (para.length + 2))

/-- `[p.strip() for p in re.split(r"\n\s*\n", text) if p.strip()]`. -/
def paraPieces (t : String) : List String :=
  (((splitBlank t.data).map stripChars).filter (fun l => ¬ l = [])).map String.mk

/-- The sentence fallback: when the paragraph split yields exactly one
paragraph, re-split it into sentences, keeping fragments whose `strip()` is
non-empty (unstripped, as in the source). -/
def sentFallback : List String → List String
  | [only] =>
    ((splitSentences only.data).filter (fun l => ¬ stripChars l = [])).map String.mk
  | raw => raw

/-- `PDFService.chunk_text`. -/
def chunk_text (size ov : Nat) (text : String) : List String :=
  let t := normalize_whitespace text
  if t = "" then []
  else
    let raw0 := paraPieces t
    if raw0 = [] then []
    else packLoop size ov (sentFallback raw0) [] 0

/-- Modelled from the spec's overlap-seeding sentence: scan the just-closed
accumulator's pieces from the end backward, greedily collecting whole pieces
whose cumulative length stays at or below `chunk_overlap`. -/
def specCollect (ov : Nat) : Nat → List String → List String
  | _, [] => []
  | acc, p :: ps =>
    if acc + p.length + 2 ≤ ov then p :: specCollect ov (acc + p.length + 2) ps
    else []

/-- Modelled from the spec: the overlap seed, in original order. -/
def specSeed (ov : Nat) (closed : List String) : List String :=
  (specCollect ov 0 closed.reverse).reverse

/-- Modelled from the spec's packing sentences: accumulate pieces while the
running length (piece length plus 2-character join cost) stays at or below
`chunk_size`; when the next piece would exceed it and the accumulator is
non-empty, close the chunk (blank-line join) and seed the new accumulator
with the overlap pieces; flush the remaining accumulator. -/
def specPack (size ov : Nat) : List String → List String → List String
  | acc, [] => if acc = [] then [] else [joinPieces "\n\n" acc]
  | acc, p :: ps =>
    if size < lenSum (acc ++ [p]) ∧ ¬ acc = [] then
      joinPieces "\n\n" acc :: specPack size ov (specSeed ov acc ++ [p]) ps
    else specPack size ov (acc ++ [p]) ps

/-- The spec-side chunker: same piece extraction, spec-worded packing. -/
def spec_chunk (size ov : Nat) (text : String) : List String :=
  let t := normalize_whitespace text
  if t = "" then []
  else
    let raw0 := paraPieces t
    if raw0 = [] then []
    else specPack size ov [] (sentFallback raw0)

/-- ASCII lowering, modelling `str.lower()` on the characters the code meets. -/
def lowerChar (c : Char) : Char := c.toLower

/-- Worker for `str.split()` (no argument): maximal runs of non-whitespace
characters, empty pieces discarded.  `acc` is the current word, reversed. -/
def wordsAux : List Char → List Char → List (List Char)
  | acc, [] => if acc = [] then [] else [acc.reverse]
  | acc, c :: cs =>
    if isPyWS c then
      if acc = [] then wordsAux [] cs else acc.reverse :: wordsAux [] cs
    else wordsAux (c :: acc) cs

/-- `question.replace("?", "").lower().split()` followed by the comprehension
`[w.strip() for w in ... if len(w.strip()) > 2]` from `_get_context`. -/
def tokensOf (q : String) : List String :=
  (((wordsAux [] ((q.data.filter (fun c => ¬ c = '?')).map lowerChar)).map
      (fun w => stripChars w)).filter (fun w => 2 < w.length)).map String.mk

/-- The bigram loop `for i in range(len(words) - 1): " ".join(words[i:i+2])`. -/
def bigrams : List String → List String
  | w₁ :: w₂ :: ws => (w₁ ++ " " ++ w₂) :: bigrams (w₂ :: ws)
  | _ => []

/-- `extra_queries` as built in `_get_context`: the first-3-tokens query when
any token exists, then every consecutive bigram. -/
def extra_queries (q : String) : List String :=
  (if tokensOf q = [] then [] else [joinPieces " " ((tokensOf q).take 3)]) ++
    bigrams (tokensOf q)

/-- The inner append loop: `for c in search(q, 3): if c not in chunks:
chunks.append(c)`. -/
def addNew (acc : List String) (cs : List String) : List String :=
  cs.foldl (fun a c => if c ∈ a then a else a ++ [c]) acc

/-- The vector-index oracle: `EmbeddingsService.search` and
`EmbeddingsService.count` as seen by `ChatService`. -/
structure IndexO where
  search : String → Nat → List String
  count : Nat

/-- The merged chunk list built by `_get_context`: primary search results,
then for each of the first 3 extra queries (skipping empty ones) the
deduplicated results of `search(q, top_k=3)`. -/
def mergedChunks (o : IndexO) (topk : Nat) (q : String) : List String :=
  ((extra_queries q).take 3).foldl
    (fun acc e => if e = "" then acc else addNew acc (o.search e 3))
    (o.search q topk)

/-- `ChatService._get_context`: the merged chunks joined with the context
separator, or the empty string when no chunk was retrieved. -/
def get_context (o : IndexO) (topk : Nat) (q : String) : String :=
  let chunks := mergedChunks o topk q
  if chunks = [] then "" else joinPieces "\n\n---\n\n" chunks

/-- Truthiness of `self.openai_api_key` (an `Optional[str]`): `None` and the
empty string are falsy. -/
def keyTruthy : Option String → Bool
  | none => false
  | some s => ¬ s = ""

/-- The message returned by `_answer_with_openai` when the provider raises. -/
def openaiErrMsg (e : String) : String :=
  "[OpenAI error: " ++ e ++ ". Falling back to local model.]"

/-- `ChatService._answer_with_openai`: the remote chat-completion call is an
oracle from (question, context) to either a raised exception's text
(`Except.error`) or the possibly-missing message content; on success the
content (or `""`) is stripped, on any exception the error message is
returned. -/
def answer_with_openai (remote : String → String → Except String (Option String))
    (q ctx : String) : String :=
  match remote q ctx with
  | Except.ok content => pyStripStr (content.getD "")
  | Except.error e => openaiErrMsg e

/-- The prompt built by `_answer_with_hf` (context truncated to 2500
characters). -/
def hfPrompt (ctx q : String) : String :=
  "Based on the context below, answer the question with a short, direct answer. " ++
    "If the context does not have the answer, say 'Not in context.'\n\nContext: " ++
    String.mk (ctx.data.take 2500) ++ "\n\nQuestion: " ++ q ++ "\n\nAnswer:"

/-- `ChatService._answer_with_hf`: the local pipeline is an oracle from the
prompt to `out[0].get("generated_text")`; the result (or `""`) is stripped. -/
def answer_with_hf (localGen : String → Option String) (q ctx : String) : String :=
  pyStripStr ((localGen (hfPrompt ctx q)).getD "")

/-- The no-documents message of the no-context branch. -/
def noDocsMsg : String :=
  "No documents have been uploaded yet, or the knowledge base is empty. Please upload a PDF first."

/-- The no-match message of the no-context branch, naming the chunk count. -/
def noMatchMsg (n : Nat) : String :=
  "No relevant context found for your question (index has " ++ toString n ++
    " chunks). Try rephrasing or ask something that matches the document content."

/-- `c[:150] + ("..." if len(c) > 150 else "")`: a source excerpt. -/
def sourceExcerpt (c : String) : String :=
  String.mk (c.data.take 150) ++ (if 150 < c.length then "..." else "")

/-- The observable outcome of one `ChatService.answer` call: the returned
pair plus which generation capability was invoked. -/
structure AnswerOut where
  text : String
  sources : List String
  remoteCalled : Bool
  localCalled : Bool

/-- `ChatService.answer`: context assembly, the no-context terminal branch
(`count()`-dependent message, empty sources, no generation call), provider
selection by API-key truthiness, and the second primary search that builds
the source excerpts.  The embedding is total: the remote provider's
exception is a value of the oracle, consumed by `answer_with_openai`. -/
def answer (idx : IndexO) (remote : String → String → Except String (Option String))
    (localGen : String → Option String) (key : Option String) (topk : Nat)
    (q : String) : AnswerOut :=
  let context := get_context idx topk q
  if context = "" then
    { text := if idx.count = 0 then noDocsMsg else noMatchMsg idx.count
      sources := []
      remoteCalled := false
      localCalled := false }
  else if keyTruthy key then
    { text := answer_with_openai remote q context
      sources := (idx.search q topk).map sourceExcerpt
      remoteCalled := true
      localCalled := false }
  else
    { text := answer_with_hf localGen q context
      sources := (idx.search q topk).map sourceExcerpt
      remoteCalled := false
      localCalled := true }

/-- The ids derived in `add_chunks`: `f"chunk_{i}_{id(hash(c)) % 10**8}"`.
`hashF` models CPython's `hash` on strings; `addrOf` models `id`, the memory
address of the temporary `int` object `hash(c)` — CPython gives no
uniqueness or stability guarantee for it across calls (the temporary is
freed immediately, and its address is typically reused by the next
allocation). -/
def deriveIds (addrOf : Int → Nat) (hashF : String → Int) (chunks : List String) :
    List String :=
  ((List.range chunks.length).zip chunks).map
    (fun ic => "chunk_" ++ toString ic.1 ++ "_" ++ toString (addrOf (hashF ic.2) % 10 ^ 8))

/-- One persisted entry of the vector-index collection: id, embedding vector
(of abstract type `V`), chunk text and metadata copy. -/
structure IndexEntry (V : Type) where
  eid : String
  vec : V
  text : String
  meta : List (String × String)

/-- Zip of ids, embeddings, documents and metadatas as passed to
`collection.add`. -/
def zipEntries {V : Type} : List String → List V → List String →
    List (List (String × String)) → List (IndexEntry V)
  | i :: is, v :: vs, t :: ts, m :: ms => ⟨i, v, t, m⟩ :: zipEntries is vs ts ms
  | _, _, _, _ => []

/-- Outcome of one `add_chunks` call: returned count, resulting collection
contents, and whether the embedding provider was invoked. -/
structure AddOutcome (V : Type) where
  ret : Nat
  entries : List (IndexEntry V)
  encoderCalled : Bool

/-- `EmbeddingsService.add_chunks`: empty input short-circuits with 0 before
any provider call; otherwise embed, derive ids, copy the metadata mapping
per chunk, and append everything to the collection.  `encode` is the
embedding-provider oracle. -/
def add_chunks {V : Type} (encode : List String → List V) (addrOf : Int → Nat)
    (hashF : String → Int) (st : List (IndexEntry V)) (chunks : List String)
    (meta : List (String × String)) : AddOutcome V :=
  if chunks = [] then ⟨0, st, false⟩
  else
    let embeddings := encode chunks
    let ids := deriveIds addrOf hashF chunks
    let metadatas := chunks.map (fun _ => meta)
    ⟨chunks.length, st ++ zipEntries ids embeddings chunks metadatas, true⟩

/-- Normal form established by `collapseHT`: no tab and no two adjacent
spaces remain. -/
def htNormal : List Char → Prop
  | [] => True
  | c :: cs =>
    ¬ c = '\t' ∧
      (match cs with
       | d :: _ => ¬ (c = ' ' ∧ d = ' ')
       | [] => True) ∧
      htNormal cs

/-- Normal form established by `capNL`: every newline run has length at most
two; `k` newlines of the current run have already been seen. -/
def nlOK : Nat → List Char → Prop
  | _, [] => True
  | k, c :: cs => if c = '\n' then k < 2 ∧ nlOK (k + 1) cs else nlOK 0 cs

/-- Modelled from the claim's words for the expansion-query sequence: the
join of the first 3 tokens, followed by every consecutive token bigram
left-to-right. -/
def claimedQuerySeq (q : String) : List String :=
  joinPieces " " ((tokensOf q).take 3) :: bigrams (tokensOf q)

/-! ### Chunker lemmas -/

theorem overlapTail_eq_specCollect (ov : Nat) :
    ∀ (l : List String) (olen : Nat) (acc : List String),
      overlapTail ov olen acc l = (specCollect ov olen l).reverse ++ acc := by
  intro l
  induction l with
  | nil => intro olen acc; simp [overlapTail, specCollect]
  | cons p ps ih =>
    intro olen acc
    by_cases h : olen + p.length + 2 ≤ ov
    · simp [overlapTail, specCollect, h, ih]
    · simp [overlapTail, specCollect, h]

theorem lenSum_append (a : List String) (p : String) :
    lenSum (a ++ [p]) = lenSum a + (p.length + 2) := by
  simp [lenSum]

theorem lenSum_reverse (l : List String) : lenSum l.reverse = lenSum l := by
  rw [lenSum, lenSum, List.map_reverse, List.sum_reverse]

theorem packLoop_eq_specPack :
    ∀ (paras acc : List String) (size ov : Nat),
      packLoop size ov paras acc (lenSum acc) = specPack size ov acc paras := by
  intro paras
  induction paras with
  | nil => intro acc size ov; rfl
  | cons p ps ih =>
    intro acc size ov
    by_cases h : size < lenSum acc + (p.length + 2) ∧ ¬ acc = []
    · have hcond : size < lenSum (acc ++ [p]) ∧ ¬ acc = [] := by
        rw [lenSum_append]; exact h
      rw [packLoop, specPack, if_pos h, if_pos hcond]
      have hseed : overlapTail ov 0 [] acc.reverse = specSeed ov acc := by
        rw [overlapTail_eq_specCollect, List.append_nil]; rfl
      rw [hseed]
      have := ih (specSeed ov acc ++ [p]) size ov
      rw [lenSum_append] at this
      exact congrArg _ this
    · have hcond : ¬ (size < lenSum (acc ++ [p]) ∧ ¬ acc = []) := by
        rw [lenSum_append]; exact h
      rw [packLoop, specPack, if_neg h, if_neg hcond]
      have := ih (acc ++ [p]) size ov
      rw [lenSum_append] at this
      exact this

theorem chunk_text_eq_spec_chunk (size ov : Nat) (text : String) :
    chunk_text size ov text = spec_chunk size ov text := by
  simp only [chunk_text, spec_chunk]
  split_ifs with h1 h2
  · rfl
  · rfl
  · exact packLoop_eq_specPack (sentFallback (paraPieces (normalize_whitespace text))) [] size ov

theorem specCollect_isPrefix :
    ∀ (l : List String) (ov acc : Nat), ∃ rest, l = specCollect ov acc l ++ rest := by
  intro l
  induction l with
  | nil => exact fun ov acc => ⟨[], rfl⟩
  | cons p ps ih =>
    intro ov acc
    by_cases h : acc + p.length + 2 ≤ ov
    · obtain ⟨rest, hr⟩ := ih ov (acc + p.length + 2)
      refine ⟨rest, ?_⟩
      rw [specCollect, if_pos h, List.cons_append]
      exact congrArg _ hr
    · exact ⟨p :: ps, by rw [specCollect, if_neg h, List.nil_append]⟩

theorem overlapSeed_isSuffix (ov : Nat) (cur : List String) :
    ∃ pre, cur = pre ++ overlapTail ov 0 [] cur.reverse := by
  obtain ⟨rest, hr⟩ := specCollect_isPrefix cur.reverse ov 0
  refine ⟨rest.reverse, ?_⟩
  rw [overlapTail_eq_specCollect, List.append_nil]
  calc cur = cur.reverse.reverse := (List.reverse_reverse cur).symm
    _ = (specCollect ov 0 cur.reverse ++ rest).reverse := by rw [← hr]
    _ = rest.reverse ++ (specCollect ov 0 cur.reverse).reverse := List.reverse_append _ _

theorem specCollect_bound :
    ∀ (l : List String) (ov acc : Nat),
      acc + lenSum (specCollect ov acc l) ≤ ov ∨ specCollect ov acc l = [] := by
  intro l
  induction l with
  | nil => intro ov acc; right; rfl
  | cons p ps ih =>
    intro ov acc
    by_cases h : acc + p.length + 2 ≤ ov
    · left
      rw [specCollect, if_pos h]
      have : lenSum (p :: specCollect ov (acc + p.length + 2) ps)
          = (p.length + 2) + lenSum (specCollect ov (acc + p.length + 2) ps) := by
        simp only [lenSum, List.map_cons, List.sum_cons]
      rw [this]
      rcases ih ov (acc + p.length + 2) with hle | hnil
      · omega
      · rw [hnil]
        simp only [lenSum, List.map_nil, List.sum_nil]
        omega
    · right; rw [specCollect, if_neg h]

theorem overlapSeed_bound (ov : Nat) (cur : List String) :
    lenSum (overlapTail ov 0 [] cur.reverse) ≤ ov := by
  rw [overlapTail_eq_specCollect, List.append_nil, lenSum_reverse]
  rcases specCollect_bound cur.reverse ov 0 with h | h
  · omega
  · rw [h]; exact Nat.zero_le ov

/-! ### Whitespace-normalization lemmas (towards idempotence) -/

theorem htNormal_tail {c : Char} {cs : List Char} (h : htNormal (c :: cs)) :
    htNormal cs := h.2.2

theorem collapseHT_true_head :
    ∀ (l : List Char) (d : Char) (t : List Char),
      collapseHT true l = d :: t → isHT d = false := by
  intro l
  induction l with
  | nil => intro d t h; simp [collapseHT] at h
  | cons c cs ih =>
    intro d t h
    by_cases hc : isHT c
    · rw [collapseHT, if_pos hc] at h
      exact ih d t h
    · rw [collapseHT, if_neg hc] at h
      cases h
      simpa using hc

theorem not_space_of_not_isHT {c : Char} (h : ¬ isHT c = true) : ¬ c = ' ' := by
  simp [isHT] at h
  exact h.1

theorem not_tab_of_not_isHT {c : Char} (h : ¬ isHT c = true) : ¬ c = '\t' := by
  simp [isHT] at h
  exact h.2

theorem htNormal_collapseHT : ∀ (l : List Char) (b : Bool), htNormal (collapseHT b l) := by
  intro l
  induction l with
  | nil => intro b; trivial
  | cons c cs ih =>
    intro b
    by_cases hc : isHT c
    · cases b with
      | true =>
        rw [collapseHT, if_pos hc]
        exact ih true
      | false =>
        rw [collapseHT, if_pos hc]
        show htNormal (' ' :: collapseHT true cs)
        refine ⟨by decide, ?_, ih true⟩
        rcases hX : collapseHT true cs with _ | ⟨d, t⟩
        · trivial
        · have hd := collapseHT_true_head cs d t hX
          intro hcontra
          rw [hcontra.2] at hd
          simp [isHT] at hd
    · rw [collapseHT, if_neg hc]
      refine ⟨not_tab_of_not_isHT hc, ?_, ih false⟩
      rcases collapseHT false cs with _ | ⟨d, t⟩
      · trivial
      · intro hcontra
        exact not_space_of_not_isHT hc hcontra.1

theorem collapseHT_of_htNormal : ∀ l : List Char, htNormal l → collapseHT false l = l := by
  intro l
  induction l with
  | nil => intro _; rfl
  | cons c cs ih =>
    intro h
    by_cases hc : isHT c
    · have hsp : c = ' ' := by
        rcases (by simpa [isHT] using hc : c = ' ' ∨ c = '\t') with h' | h'
        · exact h'
        · exact absurd h' h.1
      subst hsp
      rw [collapseHT, if_pos hc]
      show ' ' :: collapseHT true cs = ' ' :: cs
      cases cs with
      | nil => rfl
      | cons d t =>
        have hd : ¬ isHT d = true := by
          have hds : ¬ d = ' ' := fun hd' => h.2.1 ⟨rfl, hd'⟩
          have hdt : ¬ d = '\t' := (htNormal_tail h).1
          simp [isHT, hds, hdt]
        have htail := ih (htNormal_tail h)
        rw [collapseHT, if_neg hd] at htail ⊢
        rw [htail]
    · rw [collapseHT, if_neg hc]
      rw [ih (htNormal_tail h)]

theorem capNL_zero_head :
    ∀ (cs : List Char) (d : Char) (t : List Char),
      capNL 0 cs = d :: t → ∃ t0, cs = d :: t0 := by
  intro cs d t h
  cases cs with
  | nil => simp [capNL] at h
  | cons e cs' =>
    by_cases he : e = '\n'
    · subst he
      rw [capNL, if_pos rfl] at h
      simp at h
      exact ⟨cs', by rw [h.1]⟩
    · rw [capNL, if_neg he] at h
      cases h
      exact ⟨cs', rfl⟩

theorem htNormal_capNL : ∀ (l : List Char) (k : Nat), htNormal l → htNormal (capNL k l) := by
  intro l
  induction l with
  | nil => intro k _; trivial
  | cons c cs ih =>
    intro k h
    by_cases hn : c = '\n'
    · subst hn
      rw [capNL, if_pos rfl]
      by_cases hk : k < 2
      · simp only [if_pos hk, List.singleton_append]
        refine ⟨by decide, ?_, ih (k + 1) (htNormal_tail h)⟩
        rcases capNL (k + 1) cs with _ | ⟨d, t⟩
        · trivial
        · intro hcontra
          cases hcontra.1
      · simp only [if_neg hk, List.nil_append]
        exact ih (k + 1) (htNormal_tail h)
    · rw [capNL, if_neg hn]
      refine ⟨h.1, ?_, ih 0 (htNormal_tail h)⟩
      rcases hX : capNL 0 cs with _ | ⟨d, t⟩
      · trivial
      · obtain ⟨t0, ht0⟩ := capNL_zero_head cs d t hX
        rw [ht0] at h
        exact h.2.1

theorem htNormal_append_left : ∀ (l r : List Char), htNormal (l ++ r) → htNormal l := by
  intro l
  induction l with
  | nil => intro r _; trivial
  | cons c l' ih =>
    intro r h
    refine ⟨h.1, ?_, ih r (htNormal_tail h)⟩
    cases l' with
    | nil => trivial
    | cons d t => exact h.2.1

theorem htNormal_dropWhile (p : Char → Bool) :
    ∀ l : List Char, htNormal l → htNormal (l.dropWhile p) := by
  intro l
  induction l with
  | nil => intro _; trivial
  | cons c cs ih =>
    intro h
    by_cases hc : p c
    · rw [List.dropWhile_cons, if_pos hc]
      exact ih (htNormal_tail h)
    · rw [List.dropWhile_cons, if_neg hc]
      exact h

theorem trimRight_append (x : List Char) :
    trimRight x ++ (x.reverse.takeWhile isPyWS).reverse = x := by
  rw [trimRight, ← List.reverse_append, List.takeWhile_append_dropWhile, List.reverse_reverse]

theorem htNormal_stripChars (l : List Char) (h : htNormal l) : htNormal (stripChars l) := by
  have h1 : htNormal (trimLeft l) := htNormal_dropWhile isPyWS l h
  have h2 := trimRight_append (trimLeft l)
  rw [stripChars]
  exact htNormal_append_left _ _ (h2.symm ▸ h1)

theorem nlOK_mono : ∀ (l : List Char) (j k : Nat), j ≤ k → nlOK k l → nlOK j l := by
  intro l
  induction l with
  | nil => intro j k _ _; trivial
  | cons c cs ih =>
    intro j k hjk h
    by_cases hn : c = '\n'
    · subst hn
      rw [nlOK, if_pos rfl] at h ⊢
      exact ⟨by omega, ih (j + 1) (k + 1) (by omega) h.2⟩
    · rw [nlOK, if_neg hn] at h ⊢
      exact h

theorem nlOK_capNL : ∀ (l : List Char) (k : Nat), nlOK k (capNL k l) := by
  intro l
  induction l with
  | nil => intro k; trivial
  | cons c cs ih =>
    intro k
    by_cases hn : c = '\n'
    · subst hn
      rw [capNL, if_pos rfl]
      by_cases hk : k < 2
      · simp only [if_pos hk, List.singleton_append]
        rw [nlOK, if_pos rfl]
        exact ⟨hk, ih (k + 1)⟩
      · simp only [if_neg hk, List.nil_append]
        exact nlOK_mono _ k (k + 1) (by omega) (ih (k + 1))
    · rw [capNL, if_neg hn, nlOK, if_neg hn]
      exact ih 0

theorem capNL_of_nlOK : ∀ (l : List Char) (k : Nat), nlOK k l → capNL k l = l := by
  intro l
  induction l with
  | nil => intro k _; rfl
  | cons c cs ih =>
    intro k h
    by_cases hn : c = '\n'
    · subst hn
      rw [nlOK, if_pos rfl] at h
      rw [capNL, if_pos rfl, if_pos h.1, List.singleton_append, ih (k + 1) h.2]
    · rw [nlOK, if_neg hn] at h
      rw [capNL, if_neg hn, ih 0 h]

theorem nlOK_tail0 {k : Nat} {c : Char} {cs : List Char} (h : nlOK k (c :: cs)) :
    nlOK 0 cs := by
  by_cases hn : c = '\n'
  · subst hn
    rw [nlOK, if_pos rfl] at h
    exact nlOK_mono cs 0 (k + 1) (by omega) h.2
  · rw [nlOK, if_neg hn] at h
    exact h

theorem nlOK_dropWhile (p : Char → Bool) :
    ∀ l : List Char, nlOK 0 l → nlOK 0 (l.dropWhile p) := by
  intro l
  induction l with
  | nil => intro _; trivial
  | cons c cs ih =>
    intro h
    by_cases hc : p c
    · rw [List.dropWhile_cons, if_pos hc]
      exact ih (nlOK_tail0 h)
    · rw [List.dropWhile_cons, if_neg hc]
      exact h

theorem nlOK_append_left : ∀ (l r : List Char) (k : Nat), nlOK k (l ++ r) → nlOK k l := by
  intro l
  induction l with
  | nil => intro r k _; trivial
  | cons c l' ih =>
    intro r k h
    by_cases hn : c = '\n'
    · subst hn
      rw [List.cons_append, nlOK, if_pos rfl] at h
      rw [nlOK, if_pos rfl]
      exact ⟨h.1, ih r (k + 1) h.2⟩
    · rw [List.cons_append, nlOK, if_neg hn] at h
      rw [nlOK, if_neg hn]
      exact ih r 0 h

theorem nlOK_stripChars (l : List Char) (h : nlOK 0 l) : nlOK 0 (stripChars l) := by
  have h1 : nlOK 0 (trimLeft l) := nlOK_dropWhile isPyWS l h
  have h2 := trimRight_append (trimLeft l)
  rw [stripChars]
  exact nlOK_append_left _ _ 0 (h2.symm ▸ h1)

theorem dropWhile_head_false (p : Char → Bool) :
    ∀ (l : List Char) (d : Char) (t : List Char),
      l.dropWhile p = d :: t → p d = false := by
  intro l
  induction l with
  | nil => intro d t h; simp at h
  | cons c cs ih =>
    intro d t h
    by_cases hc : p c
    · rw [List.dropWhile_cons, if_pos hc] at h
      exact ih d t h
    · rw [List.dropWhile_cons, if_neg hc] at h
      cases h
      simpa using hc

theorem stripChars_idem (l : List Char) : stripChars (stripChars l) = stripChars l := by
  have hyl : trimLeft (stripChars l) = stripChars l := by
    rcases hy : stripChars l with _ | ⟨d, t⟩
    · rfl
    · have hrt : trimRight (trimLeft l) = d :: t := hy
      have hpref := trimRight_append (trimLeft l)
      rw [hrt] at hpref
      have hfull : trimLeft l = d :: (t ++ ((trimLeft l).reverse.takeWhile isPyWS).reverse) :=
        hpref.symm
      have hd : isPyWS d = false :=
        dropWhile_head_false isPyWS l d
          (t ++ ((trimLeft l).reverse.takeWhile isPyWS).reverse) hfull
      show List.dropWhile isPyWS (d :: t) = d :: t
      rw [List.dropWhile_cons, if_neg (by simp [hd])]
  have hrev : (stripChars l).reverse = (trimLeft l).reverse.dropWhile isPyWS := by
    show (((trimLeft l).reverse.dropWhile isPyWS).reverse).reverse = _
    rw [List.reverse_reverse]
  have hyr : trimRight (stripChars l) = stripChars l := by
    rcases hyr' : (stripChars l).reverse with _ | ⟨d, t⟩
    · have hnil : stripChars l = [] := by
        rw [← List.reverse_reverse (stripChars l), hyr']
        rfl
      rw [hnil]
      rfl
    · have hd : isPyWS d = false :=
        dropWhile_head_false isPyWS (trimLeft l).reverse d t (by rw [← hrev, hyr'])
      show ((stripChars l).reverse.dropWhile isPyWS).reverse = stripChars l
      rw [hyr', List.dropWhile_cons, if_neg (by simp [hd]), ← hyr', List.reverse_reverse]
  calc stripChars (stripChars l) = trimRight (trimLeft (stripChars l)) := rfl
    _ = trimRight (stripChars l) := by rw [hyl]
    _ = stripChars l := hyr

/-! ### Claim theorems -/

/-- C8: whitespace normalization is idempotent: for every input string,
`normalize_whitespace (normalize_whitespace text) = normalize_whitespace
text`, where normalization collapses runs of horizontal whitespace to one
space, collapses 3 or more consecutive newlines to exactly 2, trims
leading/trailing whitespace, and maps empty input to empty output. -/
theorem normalize_whitespace_idempotent (s : String) :
    normalize_whitespace (normalize_whitespace s) = normalize_whitespace s := by
  by_cases h0 : s = ""
  · rw [h0]
    rfl
  · set t := normalize_whitespace s with ht
    by_cases h1 : t = ""
    · rw [h1]
      rfl
    · rw [normalize_whitespace, if_neg h1]
      have htd : t.data = stripChars (capNL 0 (collapseHT false s.data)) := by
        rw [ht, normalize_whitespace, if_neg h0]
      rw [htd]
      have hht : htNormal (stripChars (capNL 0 (collapseHT false s.data))) :=
        htNormal_stripChars _ (htNormal_capNL _ 0 (htNormal_collapseHT s.data false))
      have hnl : nlOK 0 (stripChars (capNL 0 (collapseHT false s.data))) :=
        nlOK_stripChars _ (nlOK_capNL (collapseHT false s.data) 0)
      rw [collapseHT_of_htNormal _ hht, capNL_of_nlOK _ 0 hnl, stripChars_idem]
      rw [ht, normalize_whitespace, if_neg h0]

set_option maxRecDepth 4000 in
/-- C3: `chunk_text` packs pieces greedily exactly as the spec describes —
the source packing loop equals the spec-worded greedy packing with overlap
seeding (`spec_chunk`), the overlap seed is a whole-piece suffix of the
closed accumulator in original order, its cumulative length stays at most
`chunk_overlap`, and the concrete scenario (chunk_size 500, overlap 50, two
paragraphs of 300 and 250 characters separated by a blank line) yields
exactly the two paragraphs as chunks with no overlap carried. -/
theorem chunk_text_greedy_packing :
    (∀ size ov text, chunk_text size ov text = spec_chunk size ov text)
    ∧ (∀ (ov : Nat) (cur : List String), ∃ pre, cur = pre ++ overlapTail ov 0 [] cur.reverse)
    ∧ (∀ (ov : Nat) (cur : List String), lenSum (overlapTail ov 0 [] cur.reverse) ≤ ov)
    ∧ chunk_text 500 50
        (String.mk (List.replicate 300 'a') ++ "\n\n" ++ String.mk (List.replicate 250 'b'))
      = [String.mk (List.replicate 300 'a'), String.mk (List.replicate 250 'b')] :=
  ⟨chunk_text_eq_spec_chunk, overlapSeed_isSuffix, overlapSeed_bound, by decide⟩

/-- C4: the expansion queries actually run (the first 3 of `extra_queries`,
empty strings skipped) are exactly the first 3 elements, in generation
order, of the claim's sequence — the join of the first 3 tokens followed by
every consecutive token bigram — with empty query strings skipped; and if
the question has zero qualifying tokens, no expansion query runs and only
the primary search result is returned. -/
theorem expansion_queries_match_claim (o : IndexO) (topk : Nat) (q : String) :
    ((extra_queries q).take 3).filter (fun s => ¬ s = "")
        = ((claimedQuerySeq q).take 3).filter (fun s => ¬ s = "")
    ∧ (tokensOf q = [] → mergedChunks o topk q = o.search q topk) := by
  constructor
  · rcases h : tokensOf q with _ | ⟨w, ws⟩
    · simp [extra_queries, claimedQuerySeq, h, bigrams, joinPieces]
    · simp [extra_queries, claimedQuerySeq, h]
  · intro h
    simp [mergedChunks, extra_queries, h, bigrams]

/-- Witness for C4 at the question "to be", which has no qualifying token. -/
theorem expansion_queries_match_claim_w :
    mergedChunks ⟨fun _ _ => ["x"], 1⟩ 5 "to be" = ["x"] :=
  (expansion_queries_match_claim ⟨fun _ _ => ["x"], 1⟩ 5 "to be").2 (by decide)

/-- C1: if the remote branch is selected (truthy API key) and the remote
provider call raises (is an `Except.error`), then `answer` returns exactly
the error message — a non-empty string whose character data contains the
error text — and the local generation capability is never invoked; no
exception propagates (the embedding is a total function returning this
value). -/
theorem remote_error_contained (idx : IndexO)
    (remote : String → String → Except String (Option String))
    (localGen : String → Option String) (key : Option String) (topk : Nat)
    (q e : String)
    (hkey : keyTruthy key = true)
    (hctx : ¬ get_context idx topk q = "")
    (herr : remote q (get_context idx topk q) = Except.error e) :
    (answer idx remote localGen key topk q).text = openaiErrMsg e
    ∧ ¬ (answer idx remote localGen key topk q).text = ""
    ∧ (∃ pre suf, (answer idx remote localGen key topk q).text.data
        = pre ++ e.data ++ suf)
    ∧ (answer idx remote localGen key topk q).localCalled = false := by
  have hA : answer idx remote localGen key topk q =
      { text := answer_with_openai remote q (get_context idx topk q)
        sources := (idx.search q topk).map sourceExcerpt
        remoteCalled := true
        localCalled := false } := by
    simp only [answer]
    rw [if_neg hctx, if_pos hkey]
  have hT : (answer idx remote localGen key topk q).text = openaiErrMsg e := by
    rw [hA]
    show answer_with_openai remote q (get_context idx topk q) = openaiErrMsg e
    simp only [answer_with_openai]
    rw [herr]
  refine ⟨hT, ?_, ?_, by rw [hA]⟩
  · rw [hT]
    intro hcontra
    have hlen := congrArg String.length hcontra
    rw [openaiErrMsg, String.length_append, String.length_append] at hlen
    have h1 : ("[OpenAI error: " : String).length = 15 := rfl
    have h2 : ("" : String).length = 0 := rfl
    rw [h1, h2] at hlen
    omega
  · rw [hT, openaiErrMsg]
    exact ⟨"[OpenAI error: ".data, ". Falling back to local model.]".data, by
      rw [String.data_append, String.data_append]⟩

/-- Witness for C1, at an index returning one chunk and a remote provider
that raises with text "boom". -/
theorem remote_error_contained_w :
    (answer ⟨fun _ _ => ["ctx"], 1⟩ (fun _ _ => Except.error "boom")
        (fun _ => some "local") (some "k") 5 "hi").text = openaiErrMsg "boom" :=
  (remote_error_contained ⟨fun _ _ => ["ctx"], 1⟩ (fun _ _ => Except.error "boom")
    (fun _ => some "local") (some "k") 5 "hi" "boom" rfl (by decide) rfl).1

/-- C2: when the merged retrieval chunk list is empty, `answer` returns
empty sources, invokes no generation provider, and returns the fixed
no-documents message when `count() = 0` and otherwise a distinct message
naming the current indexed-chunk count; the two messages are
distinguishable for every count. -/
theorem no_context_branch (idx : IndexO)
    (remote : String → String → Except String (Option String))
    (localGen : String → Option String) (key : Option String) (topk : Nat)
    (q : String)
    (hempty : mergedChunks idx topk q = []) :
    (answer idx remote localGen key topk q).text
        = (if idx.count = 0 then noDocsMsg else noMatchMsg idx.count)
    ∧ (answer idx remote localGen key topk q).sources = []
    ∧ (answer idx remote localGen key topk q).remoteCalled = false
    ∧ (answer idx remote localGen key topk q).localCalled = false
    ∧ (∀ n : Nat, ¬ noDocsMsg = noMatchMsg n)
    ∧ (∀ n : Nat, ∃ pre suf, (noMatchMsg n).data = pre ++ (toString n).data ++ suf) := by
  have hctx : get_context idx topk q = "" := by
    simp [get_context, hempty]
  have hA : answer idx remote localGen key topk q =
      { text := if idx.count = 0 then noDocsMsg else noMatchMsg idx.count
        sources := []
        remoteCalled := false
        localCalled := false } := by
    simp only [answer]
    rw [if_pos hctx]
  refine ⟨by rw [hA], by rw [hA], by rw [hA], by rw [hA], ?_, ?_⟩
  · intro n hcontra
    have h4 : noDocsMsg.data.take 4 = (noMatchMsg n).data.take 4 := by rw [hcontra]
    rw [noMatchMsg, String.data_append, String.data_append, List.append_assoc] at h4
    rw [List.take_append_of_le_length
      (by decide :
        4 ≤ ("No relevant context found for your question (index has " : String).data.length)] at h4
    exact absurd h4 (by decide)
  · intro n
    refine ⟨"No relevant context found for your question (index has ".data,
      " chunks). Try rephrasing or ask something that matches the document content.".data, ?_⟩
    rw [noMatchMsg, String.data_append, String.data_append]

/-- Witness for C2, at an index whose search returns nothing and whose
count is 0. -/
theorem no_context_branch_w :
    (answer ⟨fun _ _ => [], 0⟩ (fun _ _ => Except.error "boom")
        (fun _ => some "local") none 5 "hi").sources = [] :=
  (no_context_branch ⟨fun _ _ => [], 0⟩ (fun _ _ => Except.error "boom")
    (fun _ => some "local") none 5 "hi" (by decide)).2.1

/-- C10: the no-context branch is decided by emptiness of the joined
context string, not of the merged chunk list: a merged list of exactly one
empty-text chunk takes the no-context branch (no generation provider is
invoked, sources empty), while a merged list of two or more empty-text
chunks yields a non-empty joined context (separators only) and generation
is invoked. -/
theorem context_emptiness_decides_branch (idx : IndexO)
    (remote : String → String → Except String (Option String))
    (localGen : String → Option String) (key : Option String) (topk : Nat)
    (q : String) :
    (mergedChunks idx topk q = [""] →
      (answer idx remote localGen key topk q).text
          = (if idx.count = 0 then noDocsMsg else noMatchMsg idx.count)
      ∧ (answer idx remote localGen key topk q).sources = []
      ∧ (answer idx remote localGen key topk q).remoteCalled = false
      ∧ (answer idx remote localGen key topk q).localCalled = false)
    ∧ (∀ n : Nat, mergedChunks idx topk q = List.replicate (n + 2) "" →
        ¬ get_context idx topk q = ""
        ∧ ((answer idx remote localGen key topk q).remoteCalled
            || (answer idx remote localGen key topk q).localCalled) = true) := by
  constructor
  · intro h1
    have hctx : get_context idx topk q = "" := by
      simp [get_context, h1, joinPieces]
    have hA : answer idx remote localGen key topk q =
        { text := if idx.count = 0 then noDocsMsg else noMatchMsg idx.count
          sources := []
          remoteCalled := false
          localCalled := false } := by
      simp only [answer]
      rw [if_pos hctx]
    exact ⟨by rw [hA], by rw [hA], by rw [hA], by rw [hA]⟩
  · intro n h2
    have hjoin : ¬ joinPieces "\n\n---\n\n" (List.replicate (n + 2) "") = "" := by
      have hstep : joinPieces "\n\n---\n\n" (List.replicate (n + 2) "")
          = "" ++ "\n\n---\n\n" ++ joinPieces "\n\n---\n\n" ("" :: List.replicate n "") := rfl
      intro hcon
      have hlen := congrArg String.length hcon
      rw [hstep, String.length_append, String.length_append] at hlen
      have h9 : ("\n\n---\n\n" : String).length = 7 := rfl
      have h0 : ("" : String).length = 0 := rfl
      rw [h9, h0] at hlen
      omega
    have hctx : ¬ get_context idx topk q = "" := by
      rw [get_context, h2]
      rw [if_neg (by simp : ¬ List.replicate (n + 2) ("" : String) = [])]
      exact hjoin
    refine ⟨hctx, ?_⟩
    cases hk : keyTruthy key with
    | true =>
      have hA : answer idx remote localGen key topk q =
          { text := answer_with_openai remote q (get_context idx topk q)
            sources := (idx.search q topk).map sourceExcerpt
            remoteCalled := true
            localCalled := false } := by
        simp only [answer]
        rw [if_neg hctx, if_pos hk]
      rw [hA]
      rfl
    | false =>
      have hA : answer idx remote localGen key topk q =
          { text := answer_with_hf localGen q (get_context idx topk q)
            sources := (idx.search q topk).map sourceExcerpt
            remoteCalled := false
            localCalled := true } := by
        simp only [answer]
        rw [if_neg hctx, if_neg (by rw [hk]; exact Bool.false_ne_true)]
      rw [hA]
      rfl

/-- Witness for C10: one index whose every search yields a single
empty-text chunk (no-context branch taken), and one whose every search
yields two empty-text chunks (generation invoked). -/
theorem context_emptiness_decides_branch_w :
    (answer ⟨fun _ _ => [""], 3⟩ (fun _ _ => Except.error "boom")
        (fun _ => some "local") (some "k") 5 "hi").remoteCalled = false
    ∧ ((answer ⟨fun _ _ => ["", ""], 3⟩ (fun _ _ => Except.error "boom")
        (fun _ => some "local") (some "k") 5 "hi").remoteCalled
      || (answer ⟨fun _ _ => ["", ""], 3⟩ (fun _ _ => Except.error "boom")
        (fun _ => some "local") (some "k") 5 "hi").localCalled) = true :=
  ⟨((context_emptiness_decides_branch ⟨fun _ _ => [""], 3⟩ (fun _ _ => Except.error "boom")
      (fun _ => some "local") (some "k") 5 "hi").1 (by decide)).2.2.1,
    ((context_emptiness_decides_branch ⟨fun _ _ => ["", ""], 3⟩ (fun _ _ => Except.error "boom")
      (fun _ => some "local") (some "k") 5 "hi").2 0 (by decide)).2⟩

theorem addNew_nodup : ∀ (cs acc : List String), acc.Nodup → (addNew acc cs).Nodup := by
  intro cs
  induction cs with
  | nil => intro acc h; exact h
  | cons c cs' ih =>
    intro acc h
    show (addNew (if c ∈ acc then acc else acc ++ [c]) cs').Nodup
    apply ih
    by_cases hc : c ∈ acc
    · rw [if_pos hc]; exact h
    · rw [if_neg hc]
      rw [List.nodup_append]
      refine ⟨h, List.nodup_singleton c, ?_⟩
      intro a ha hb
      rw [List.mem_singleton] at hb
      rw [hb] at ha
      exact hc ha

theorem foldl_queries_nodup (o : IndexO) :
    ∀ (qs acc : List String), acc.Nodup →
      (qs.foldl (fun a e => if e = "" then a else addNew a (o.search e 3)) acc).Nodup := by
  intro qs
  induction qs with
  | nil => intro acc h; exact h
  | cons e qs' ih =>
    intro acc h
    show (qs'.foldl _ (if e = "" then acc else addNew acc (o.search e 3))).Nodup
    apply ih
    by_cases he : e = ""
    · rw [if_pos he]; exact h
    · rw [if_neg he]; exact addNew_nodup _ acc h

/-- C5 counterexample: when the primary search itself returns two
text-identical chunks, the merged list keeps both — the claim's dedup
guarantee over every index behavior, including duplicates among the primary
results, fails. -/
theorem merged_dup_counterexample :
    ¬ (mergedChunks ⟨fun _ _ => ["a", "a"], 0⟩ 5 "a").Nodup := by decide

/-- C5 amended: each expansion-appended chunk is added only if not already
present by exact text equality, so the merged list has no duplicate texts
whenever the primary search result itself is duplicate-free. -/
theorem merged_nodup_of_primary_nodup (o : IndexO) (topk : Nat) (q : String)
    (h : (o.search q topk).Nodup) : (mergedChunks o topk q).Nodup :=
  foldl_queries_nodup o ((extra_queries q).take 3) (o.search q topk) h

/-- Witness for C5 amended, at a duplicate-free primary result. -/
theorem merged_nodup_of_primary_nodup_w :
    (mergedChunks ⟨fun _ _ => ["x"], 1⟩ 5 "hi").Nodup :=
  merged_nodup_of_primary_nodup ⟨fun _ _ => ["x"], 1⟩ 5 "hi" (by decide)

set_option maxRecDepth 4000 in
/-- C6 counterexample: with a 151-character indexed chunk, the source
excerpt is its first 150 characters plus the 3-character ellipsis — 153
characters — so the claim's "each element is at most 150 characters long"
fails. -/
theorem sources_over_150_counterexample :
    ¬ ∀ s ∈ (answer ⟨fun _ _ => [String.mk (List.replicate 151 'a')], 1⟩
        (fun _ _ => Except.error "e") (fun _ => some "ans") none 5 "hi").sources,
      s.length ≤ 150 := by decide

/-- C6 amended: in the generation branch, `sources` is exactly the primary
search results mapped through `sourceExcerpt`; each excerpt is at most 153
characters (150 characters of chunk text plus the 3-character ellipsis),
equals the chunk text when that text is at most 150 characters, and is the
150-character prefix followed by the ellipsis marker exactly when the chunk
is longer than 150 characters. -/
theorem sources_excerpt_form (idx : IndexO)
    (remote : String → String → Except String (Option String))
    (localGen : String → Option String) (key : Option String) (topk : Nat)
    (q : String)
    (hctx : ¬ get_context idx topk q = "") :
    (answer idx remote localGen key topk q).sources
        = (idx.search q topk).map sourceExcerpt
    ∧ ∀ c : String, (sourceExcerpt c).length ≤ 153
        ∧ (c.length ≤ 150 → sourceExcerpt c = c)
        ∧ (150 < c.length → sourceExcerpt c = String.mk (c.data.take 150) ++ "...") := by
  constructor
  · simp only [answer]
    rw [if_neg hctx]
    cases hk : keyTruthy key with
    | true => rfl
    | false => rfl
  · intro c
    have hmk : (String.mk (c.data.take 150)).length = min 150 c.data.length :=
      List.length_take 150 c.data
    refine ⟨?_, ?_, ?_⟩
    · rw [sourceExcerpt, String.length_append, hmk]
      have hmin : min 150 c.data.length ≤ 150 := Nat.min_le_left _ _
      by_cases h : 150 < c.length
      · rw [if_pos h]
        have h3 : ("..." : String).length = 3 := rfl
        omega
      · rw [if_neg h]
        have h0 : ("" : String).length = 0 := rfl
        omega
    · intro hle
      rw [sourceExcerpt, if_neg (by omega : ¬ 150 < c.length)]
      have htake : c.data.take 150 = c.data := List.take_of_length_le hle
      rw [htake, String.append_empty]
    · intro hgt
      rw [sourceExcerpt, if_pos hgt]

/-- Witness for C6 amended, at an index returning one short chunk. -/
theorem sources_excerpt_form_w :
    (answer ⟨fun _ _ => ["ctx"], 1⟩ (fun _ _ => Except.error "e")
        (fun _ => some "ans") none 5 "hi").sources = [sourceExcerpt "ctx"] :=
  (sources_excerpt_form ⟨fun _ _ => ["ctx"], 1⟩ (fun _ _ => Except.error "e")
    (fun _ => some "ans") none 5 "hi" (by decide)).1

/-- C7: evaluating `add_chunks` at the failing input — two successive calls
on the same collection, in an environment where `id(hash(c))` returns the
same (reused) address both times, as CPython typically does for the freed
temporary int — shows two entries of the collection sharing id
"chunk_0_71677352": the derived ids are not unique across calls. -/
theorem duplicate_id_across_calls :
    ((add_chunks (fun cs => cs.map (fun _ => ())) (fun _ => 71677352) (fun _ => 37)
        ((add_chunks (fun cs => cs.map (fun _ => ())) (fun _ => 71677352) (fun _ => 37)
            [] ["alpha"] []).entries) ["beta"] []).entries.map (fun en => en.eid))
      = ["chunk_0_71677352", "chunk_0_71677352"]
    ∧ ¬ ("alpha" = "beta")
    ∧ ¬ ((add_chunks (fun cs => cs.map (fun _ => ())) (fun _ => 71677352) (fun _ => 37)
        ((add_chunks (fun cs => cs.map (fun _ => ())) (fun _ => 71677352) (fun _ => 37)
            [] ["alpha"] []).entries) ["beta"] []).entries.map (fun en => en.eid)).Nodup := by
  decide

/-- C9: `add_chunks` on an empty chunk sequence returns 0, never calls the
embedding provider, and leaves the collection contents (hence `count()`)
unchanged. -/
theorem add_chunks_empty_noop {V : Type} (encode : List String → List V)
    (addrOf : Int → Nat) (hashF : String → Int) (st : List (IndexEntry V))
    (meta : List (String × String)) :
    (add_chunks encode addrOf hashF st [] meta).ret = 0
    ∧ (add_chunks encode addrOf hashF st [] meta).encoderCalled = false
    ∧ (add_chunks encode addrOf hashF st [] meta).entries = st
    ∧ (add_chunks encode addrOf hashF st [] meta).entries.length = st.length :=
  ⟨rfl, rfl, rfl, rfl⟩

end PdfChatbot
